import Mathlib

/-!
Verification of the reconciliation tool in `autonomy-packages-bumper.py`.

The script fetches `packages/packages.json` from a fixed list of GitHub
repositories, aggregates the per-repository `"dev"` package maps into a map
from package name to the list of claims, and reconciles the local
`"third_party"` map against it, classifying every local entry as
not-found, collided, updated, or unchanged, and optionally writing the
mutated local file back.

Python dicts are modelled as association lists (insertion ordered, keys
unique in every dict the program actually builds); the HTTP layer is
modelled by an input describing the transport outcome for each repository.
-/

namespace Bumper

/-- The `TARGET_FILE` constant of the script. -/
def TARGET_FILE : String := "packages/packages.json"

/-- The `REPOS` list of the script (declared repository iteration order). -/
def REPOS : List String :=
  [ "valory-xyz/open-aea"
  , "valory-xyz/open-autonomy"
  , "valory-xyz/mech"
  , "valory-xyz/mech-tools-dev"
  , "valory-xyz/mech-client"
  , "valory-xyz/mech-predict"
  , "valory-xyz/mech-interact"
  , "valory-xyz/trader"
  , "valory-xyz/market-creator"
  , "valory-xyz/IEKit"
  , "valory-xyz/optimus"
  , "valory-xyz/olas-sdk-starter"
  , "valory-xyz/dev-template"
  , "valory-xyz/academy-learning-service-template"
  , "valory-xyz/meme-ooorr"
  , "valory-xyz/governatooorr" ]

/-- The `Package` class: a claim `(name, hash, repo)` made by one repository. -/
structure Package where
  name : String
  hash : String
  repo : String
deriving DecidableEq, Repr

/-- A fetched remote document.  `json.loads` of the decoded content; the
script only reads `data.get("dev", {})`, so the document is modelled by its
optional `"dev"` map (a Python dict, i.e. an ordered association list). -/
structure Doc where
  dev : Option (List (String × String))
deriving DecidableEq, Repr

/-- The state of the `"content"` field of the GitHub contents-API envelope
for a 2xx response: missing (`result["content"]` raises `KeyError`), present
but not decoding to valid JSON (`json.loads` raises), or valid. -/
inductive ContentField where
  | missing
  | invalidJson
  | valid (d : Doc)
deriving DecidableEq, Repr

/-- The transport outcome of one `github_api("GET", ...)` call: a 2xx
response carrying an envelope, an HTTP error (`urllib.error.HTTPError`), or
a network error (`urllib.error.URLError`). -/
inductive Transport where
  | ok (content : ContentField)
  | httpError
  | netError
deriving DecidableEq, Repr

/-- Model of `github_api`: returns the parsed envelope on success; the two `except`
arms catch `HTTPError` and `URLError`, print a diagnostic and return `None`. -/
def github_api : Transport → Option ContentField
  | .ok c => some c
  | .httpError => none
  | .netError => none

/-- Result of `fetch_packages`: `None` propagated from `github_api`
(absent), an uncaught exception (`KeyError` on `result["content"]`, or a
`json.loads`/base64 failure), or the parsed document. -/
inductive FetchOutcome where
  | absent
  | raised
  | doc (d : Doc)
deriving DecidableEq, Repr

/-- Model of `fetch_packages`: a `None` from `github_api` is forwarded as `None`;
otherwise `result["content"]` is read (raising `KeyError` if missing),
base64-decoded and parsed with `json.loads` (raising if invalid). -/
def fetch_packages (t : Transport) : FetchOutcome :=
  match github_api t with
  | none => .absent
  | some .missing => .raised
  | some .invalidJson => .raised
  | some (.valid d) => .doc d

/-- First-match association-list lookup, i.e. Python dict indexing /
`name in published` (keys are unique in every dict the script builds). -/
def lookupA {α : Type} : List (String × α) → String → Option α
  | [], _ => none
  | (n, v) :: rest, name => if n = name then some v else lookupA rest name

/-- Model of `published.setdefault(name, []).append(p)`: append the claim `p` to the
entry for `p.name`, creating the entry at the end of the dict if absent. -/
def addClaim : List (String × List Package) → Package → List (String × List Package)
  | [], p => [(p.name, [p])]
  | (n, ps) :: rest, p =>
    if n = p.name then (n, ps ++ [p]) :: rest
    else (n, ps) :: addClaim rest p

/-- Model of `data.get("dev", {}).items()`. -/
def devItems (d : Doc) : List (String × String) :=
  d.dev.getD []

/-- The inner loop over `data.get("dev", {}).items()` for one repository. -/
def addRepoClaims (pub : List (String × List Package)) (repo : String) (d : Doc) :
    List (String × List Package) :=
  (devItems d).foldl (fun pub nh => addClaim pub ⟨nh.1, nh.2, repo⟩) pub

/-- The `for repo_name in REPOS` aggregation loop, carried over an
accumulator `(published, checked_repos)`.  A raising fetch aborts the whole
loop (uncaught exception); an absent fetch logs and continues; a fetched
document appends the repository to `checked_repos` and its `"dev"` entries
to `published`. -/
def aggregateAux (acc : List (String × List Package) × List String) :
    List (String × Transport) → Except Unit (List (String × List Package) × List String)
  | [] => .ok acc
  | (repo, t) :: rest =>
    match fetch_packages t with
    | .raised => .error ()
    | .absent => aggregateAux acc rest
    | .doc d => aggregateAux (addRepoClaims acc.1 repo d, acc.2 ++ [repo]) rest

/-- The aggregation phase of `main`, from empty `published` / `checked_repos`. -/
def aggregate (frs : List (String × Transport)) :
    Except Unit (List (String × List Package) × List String) :=
  aggregateAux ([], []) frs

/-- The classification the reconciliation loop body gives one local entry
`(name, hash)`: the `if name not in published / elif len > 1 / elif hash !=
published[name][0].hash / else` chain.  `indexError` is the `IndexError`
Python would raise on `published[name][0]` for an empty claim list (never
built by aggregation). -/
inductive Outcome where
  | notFound
  | collided (claimants : List String)
  | updatedTo (newHash : String) (srcRepo : String)
  | unchanged
  | indexError
deriving DecidableEq, Repr

/-- The body of the reconciliation loop for one `(name, hash)` entry of
`packages.get("third_party", {})`. -/
def classify (pub : List (String × List Package)) (name hash : String) : Outcome :=
  match lookupA pub name with
  | none => .notFound
  | some ps =>
    if 1 < ps.length then .collided (ps.map (fun p => p.repo))
    else
      match ps with
      | [] => .indexError
      | p :: _ => if hash ≠ p.hash then .updatedTo p.hash p.repo else .unchanged

/-- The outcome of the reconciliation loop: the three report lists and the
(possibly mutated) `"third_party"` dict. -/
structure ReconcileResult where
  updated : List (String × String × String × String)
  collisions : List (String × List String)
  not_found : List String
  third_party : List (String × String)
deriving DecidableEq, Repr

/-- The reconciliation loop over the entries of
`packages.get("third_party", {})`: each entry is classified and appended to
the matching report list; an updated entry additionally has its value in the
dict replaced by the new hash (`packages["third_party"][name] = new_hash`).
`none` models the run dying on an uncaught `IndexError`. -/
def reconcileAux (pub : List (String × List Package)) :
    List (String × String) → Option ReconcileResult
  | [] => some ⟨[], [], [], []⟩
  | (name, hash) :: rest =>
    match classify pub name hash, reconcileAux pub rest with
    | .indexError, _ => none
    | _, none => none
    | .notFound, some r =>
        some { r with not_found := name :: r.not_found,
                      third_party := (name, hash) :: r.third_party }
    | .collided cs, some r =>
        some { r with collisions := (name, cs) :: r.collisions,
                      third_party := (name, hash) :: r.third_party }
    | .updatedTo nh src, some r =>
        some { r with updated := (name, hash, nh, src) :: r.updated,
                      third_party := (name, nh) :: r.third_party }
    | .unchanged, some r =>
        some { r with third_party := (name, hash) :: r.third_party }

/-- The local `packages.json` manifest: its optional `"third_party"` section
and the remaining sections, which the script never touches. -/
structure Manifest where
  third_party : Option (List (String × String))
  rest : List (String × String)
deriving DecidableEq, Repr

/-- Input of one run of `main`: the transport outcome for each repository
of the declared list, the local file (`none` = missing or malformed, so
`open`/`json.load` raises), and the `--dry-run` flag. -/
structure RunInput where
  fetches : List (String × Transport)
  localFile : Option Manifest
  dryRun : Bool
deriving DecidableEq, Repr

/-- The ways `main` can die with an uncaught exception. -/
inductive RunError where
  | fetchCrash
  | localFileCrash
  | reconcileCrash
deriving DecidableEq, Repr

/-- Observable outcome of a completed (exit status 0) run. -/
structure RunResult where
  checked : List String
  updated : List (String × String × String × String)
  collisions : List (String × List String)
  not_found : List String
  mem : Manifest
  wrote : Bool
  finalFile : Manifest
deriving DecidableEq, Repr

/-- Model of `main`: aggregate, load the local file, reconcile, then rewrite the
file iff `not args.dry_run and updated`.  `mem` is the in-memory manifest
after the loop; `finalFile` is the on-disk state when the run ends. -/
def run (inp : RunInput) : Except RunError RunResult :=
  match aggregate inp.fetches with
  | .error _ => .error .fetchCrash
  | .ok (pub, checked) =>
    match inp.localFile with
    | none => .error .localFileCrash
    | some m =>
      match reconcileAux pub (m.third_party.getD []) with
      | none => .error .reconcileCrash
      | some r =>
        let m' : Manifest := { m with third_party := m.third_party.map (fun _ => r.third_party) }
        let wrote := !inp.dryRun && !r.updated.isEmpty
        .ok { checked := checked, updated := r.updated, collisions := r.collisions,
              not_found := r.not_found, mem := m', wrote := wrote,
              finalFile := if wrote then m' else m }

/-! ### Characterizing the aggregation phase -/

/-- The claims one fetched document contributes, in `"dev"`-map order. -/
def repoClaims (repo : String) (d : Doc) : List Package :=
  (devItems d).map (fun nh => ⟨nh.1, nh.2, repo⟩)

/-- All claims produced by a fetch sequence, in repository iteration order
(and `"dev"`-map order within a repository). -/
def allClaims : List (String × Transport) → List Package
  | [] => []
  | (repo, t) :: rest =>
    match fetch_packages t with
    | .doc d => repoClaims repo d ++ allClaims rest
    | _ => allClaims rest

/-- The repositories whose fetch succeeds, in iteration order. -/
def checkedOf : List (String × Transport) → List String
  | [] => []
  | (repo, t) :: rest =>
    match fetch_packages t with
    | .doc _ => repo :: checkedOf rest
    | _ => checkedOf rest

/-- How a lookup combines an existing entry with the claims appended later. -/
def combineLookup (o : Option (List Package)) (extra : List Package) :
    Option (List Package) :=
  match o with
  | some vs => some (vs ++ extra)
  | none => if extra = [] then none else some extra

/-- The value of a local entry after the loop: the hash of the single claim when
the entry was updated, the original hash otherwise. -/
def newVal (pub : List (String × List Package)) (name hash : String) : String :=
  match classify pub name hash with
  | .updatedTo nh _ => nh
  | _ => hash

/-- The record an entry contributes to `updated`, if any. -/
def updRecord (pub : List (String × List Package)) (nh : String × String) :
    Option (String × String × String × String) :=
  match classify pub nh.1 nh.2 with
  | .updatedTo v s => some (nh.1, nh.2, v, s)
  | _ => none

/-- The record an entry contributes to `collisions`, if any. -/
def colRecord (pub : List (String × List Package)) (nh : String × String) :
    Option (String × List String) :=
  match classify pub nh.1 nh.2 with
  | .collided cs => some (nh.1, cs)
  | _ => none

/-- The record an entry contributes to `not_found`, if any. -/
def nfRecord (pub : List (String × List Package)) (nh : String × String) :
    Option String :=
  match classify pub nh.1 nh.2 with
  | .notFound => some nh.1
  | _ => none

/-- The entry of the mutated `"third_party"` dict for one original entry. -/
def tpEntry (pub : List (String × List Package)) (nh : String × String) :
    String × String :=
  (nh.1, newVal pub nh.1 nh.2)

/-- Closed form of the outcome of the reconciliation loop. -/
def reconcileSpec (pub : List (String × List Package))
    (local3p : List (String × String)) : ReconcileResult :=
  ⟨local3p.filterMap (updRecord pub), local3p.filterMap (colRecord pub),
   local3p.filterMap (nfRecord pub), local3p.map (tpEntry pub)⟩

/-- A fetched document has duplicate-free `"dev"` keys (automatic for a
Python dict; stated as a decidable check on the modelled transport). -/
def devOk (t : Transport) : Bool :=
  match fetch_packages t with
  | .doc d => decide (((devItems d).map Prod.fst).Nodup)
  | _ => true

/-! ### Concrete data for the witnesses (the worked example of the spec) -/

/-- First remote document of the worked example. -/
def exDoc1 : Doc := ⟨some [("libA", "h1new"), ("libX", "hA")]⟩

/-- Second remote document of the worked example. -/
def exDoc2 : Doc := ⟨some [("libB", "h2"), ("libC", "h3x"), ("libX", "hB")]⟩

/-- A fetched document with no `"dev"` key. -/
def exDoc4 : Doc := ⟨none⟩

/-- Fetch outcomes of the worked example: two successful repositories, one
HTTP failure, one success without a `"dev"` key. -/
def exFrs : List (String × Transport) :=
  [("repo1", .ok (.valid exDoc1)), ("repo2", .ok (.valid exDoc2)),
   ("repo3", .httpError), ("repo4", .ok (.valid exDoc4))]

/-- Local `"third_party"` map of the worked example. -/
def exLocal : List (String × String) :=
  [("libA", "h1"), ("libB", "h2"), ("libC", "h3"), ("libX", "hL"), ("libZ", "hZ")]

/-- Aggregated claims of the worked example. -/
def exPub : List (String × List Package) :=
  [("libA", [⟨"libA", "h1new", "repo1"⟩]),
   ("libX", [⟨"libX", "hA", "repo1"⟩, ⟨"libX", "hB", "repo2"⟩]),
   ("libB", [⟨"libB", "h2", "repo2"⟩]),
   ("libC", [⟨"libC", "h3x", "repo2"⟩])]

/-- Checked repositories of the worked example. -/
def exChecked : List String := ["repo1", "repo2", "repo4"]

/-- Reconciliation outcome of the worked example. -/
def exResult : ReconcileResult :=
  ⟨[("libA", "h1", "h1new", "repo1"), ("libC", "h3", "h3x", "repo2")],
   [("libX", ["repo1", "repo2"])],
   ["libZ"],
   [("libA", "h1new"), ("libB", "h2"), ("libC", "h3x"), ("libX", "hL"), ("libZ", "hZ")]⟩

/-- Local manifest of the worked example, with one untouched extra section. -/
def exManifest : Manifest := ⟨some exLocal, [("k", "v")]⟩

/-- Run input of the worked example, without `--dry-run`. -/
def exInput : RunInput := ⟨exFrs, some exManifest, false⟩

/-- Mutated manifest of the worked example. -/
def exManifestAfter : Manifest := ⟨some exResult.third_party, [("k", "v")]⟩

/-- Run outcome of the worked example. -/
def exRun : RunResult :=
  { checked := exChecked, updated := exResult.updated,
    collisions := exResult.collisions, not_found := exResult.not_found,
    mem := exManifestAfter, wrote := true, finalFile := exManifestAfter }

/-! ### Helper lemmas -/

theorem addRepoClaims_eq_foldl (pub : List (String × List Package)) (repo : String) (d : Doc) :
    addRepoClaims pub repo d = (repoClaims repo d).foldl addClaim pub := by
  simp [addRepoClaims, repoClaims, List.foldl_map]

theorem lookupA_addClaim (pub : List (String × List Package)) (p : Package) (name : String) :
    lookupA (addClaim pub p) name =
      if p.name = name then some ((lookupA pub name).getD [] ++ [p])
      else lookupA pub name := by
  induction pub with
  | nil =>
    by_cases h : p.name = name <;> simp [addClaim, lookupA, h]
  | cons hd tl ih =>
    obtain ⟨n, ps⟩ := hd
    by_cases h1 : n = p.name
    · by_cases h2 : n = name
      · have hp : p.name = name := h1 ▸ h2
        simp [addClaim, lookupA, h1, h2, hp]
      · have hp : ¬ p.name = name := fun hh => h2 (h1.trans hh)
        simp [addClaim, lookupA, h1, h2, hp]
    · by_cases h2 : n = name
      · have hp : ¬ p.name = name := fun hh => h1 (h2.trans hh.symm)
        have hq : ¬ name = p.name := fun hh => hp hh.symm
        simp [addClaim, lookupA, h1, h2, hp, hq]
      · simp [addClaim, lookupA, h1, h2, ih]

theorem combineLookup_nil (o : Option (List Package)) : combineLookup o [] = o := by
  cases o <;> simp [combineLookup]

theorem lookupA_foldl_addClaim (cs : List Package) (name : String) :
    ∀ pub, lookupA (cs.foldl addClaim pub) name =
      combineLookup (lookupA pub name) (cs.filter (fun p => p.name = name)) := by
  induction cs with
  | nil => intro pub; simp [combineLookup_nil]
  | cons c cs ih =>
    intro pub
    rw [List.foldl_cons, ih (addClaim pub c), lookupA_addClaim]
    by_cases h : c.name = name
    · simp only [h, if_pos rfl, List.filter_cons, decide_eq_true_eq, if_pos h]
      cases ho : lookupA pub name <;>
        simp [combineLookup, ho, List.filter_cons, h]
    · simp [combineLookup, h, List.filter_cons]

theorem aggregateAux_inv :
    ∀ (frs : List (String × Transport)) (acc : List (String × List Package) × List String)
      (pub : List (String × List Package)) (checked : List String),
      aggregateAux acc frs = .ok (pub, checked) →
      pub = (allClaims frs).foldl addClaim acc.1 ∧ checked = acc.2 ++ checkedOf frs := by
  intro frs
  induction frs with
  | nil =>
    intro acc pub checked h
    simp only [aggregateAux, Except.ok.injEq] at h
    subst h
    simp [allClaims, checkedOf]
  | cons hd rest ih =>
    intro acc pub checked h
    obtain ⟨repo, t⟩ := hd
    cases hf : fetch_packages t with
    | raised => simp [aggregateAux, hf] at h
    | absent =>
      simp only [aggregateAux, hf] at h
      simpa [allClaims, checkedOf, hf] using ih acc pub checked h
    | doc d =>
      simp only [aggregateAux, hf] at h
      have := ih _ pub checked h
      simp only [allClaims, checkedOf, hf]
      constructor
      · rw [this.1, List.foldl_append, addRepoClaims_eq_foldl]
      · rw [this.2]; simp

theorem aggregateAux_ok (frs : List (String × Transport))
    (h : ∀ p ∈ frs, fetch_packages p.2 ≠ .raised) :
    ∀ acc, aggregateAux acc frs =
      .ok ((allClaims frs).foldl addClaim acc.1, acc.2 ++ checkedOf frs) := by
  induction frs with
  | nil => intro acc; simp [aggregateAux, allClaims, checkedOf]
  | cons hd rest ih =>
    intro acc
    obtain ⟨repo, t⟩ := hd
    have hne : fetch_packages t ≠ .raised := h (repo, t) (by simp)
    have hrest : ∀ p ∈ rest, fetch_packages p.2 ≠ .raised :=
      fun p hp => h p (List.mem_cons_of_mem _ hp)
    cases hf : fetch_packages t with
    | raised => exact absurd hf hne
    | absent =>
      simp only [aggregateAux, hf]
      simpa [allClaims, checkedOf, hf] using ih hrest acc
    | doc d =>
      simp only [aggregateAux, hf]
      rw [ih hrest]
      simp [allClaims, checkedOf, hf, List.foldl_append, addRepoClaims_eq_foldl]

theorem aggregate_inv {frs : List (String × Transport)}
    {pub : List (String × List Package)} {checked : List String}
    (h : aggregate frs = .ok (pub, checked)) :
    pub = (allClaims frs).foldl addClaim [] ∧ checked = checkedOf frs := by
  have := aggregateAux_inv frs ([], []) pub checked h
  simpa using this

theorem lookupA_aggregate {frs : List (String × Transport)}
    {pub : List (String × List Package)} {checked : List String}
    (h : aggregate frs = .ok (pub, checked)) (name : String) :
    lookupA pub name =
      (if (allClaims frs).filter (fun p => p.name = name) = [] then none
       else some ((allClaims frs).filter (fun p => p.name = name))) := by
  rw [(aggregate_inv h).1, lookupA_foldl_addClaim]
  simp [lookupA, combineLookup]

theorem lookupA_aggregate_some {frs : List (String × Transport)}
    {pub : List (String × List Package)} {checked : List String}
    (h : aggregate frs = .ok (pub, checked)) {name : String} {ps : List Package}
    (hl : lookupA pub name = some ps) :
    ps = (allClaims frs).filter (fun p => p.name = name) ∧ ps ≠ [] := by
  rw [lookupA_aggregate h name] at hl
  by_cases hf : (allClaims frs).filter (fun p => p.name = name) = [] <;>
    simp [hf] at hl
  simp [← hl, hf]

theorem lookupA_aggregate_none {frs : List (String × Transport)}
    {pub : List (String × List Package)} {checked : List String}
    (h : aggregate frs = .ok (pub, checked)) (name : String) :
    lookupA pub name = none ↔
      ∀ p ∈ allClaims frs, p.name ≠ name := by
  rw [lookupA_aggregate h name]
  have hiff : ((allClaims frs).filter (fun p => p.name = name) = []) ↔
      ∀ p ∈ allClaims frs, p.name ≠ name := by
    simp [List.filter_eq_nil_iff]
  by_cases hf : (allClaims frs).filter (fun p => p.name = name) = []
  · rw [if_pos hf]
    simpa using hiff.mp hf
  · rw [if_neg hf]
    constructor
    · intro hx; simp at hx
    · intro hall; exact absurd (hiff.mpr hall) hf

/-! ### Characterizing the reconciliation loop -/

theorem classify_ne_indexError {frs : List (String × Transport)}
    {pub : List (String × List Package)} {checked : List String}
    (h : aggregate frs = .ok (pub, checked)) (name hash : String) :
    classify pub name hash ≠ .indexError := by
  unfold classify
  cases hl : lookupA pub name with
  | none => simp
  | some ps =>
    have hne : ps ≠ [] := (lookupA_aggregate_some h hl).2
    cases ps with
    | nil => exact absurd rfl hne
    | cons p rest =>
      by_cases hlen : 1 < (p :: rest).length <;>
        by_cases hh : hash ≠ p.hash <;> simp [hlen, hh] <;> (split <;> simp)

theorem reconcileAux_eq_spec (pub : List (String × List Package))
    (local3p : List (String × String))
    (h : ∀ nh ∈ local3p, classify pub nh.1 nh.2 ≠ .indexError) :
    reconcileAux pub local3p = some (reconcileSpec pub local3p) := by
  induction local3p with
  | nil => simp [reconcileAux, reconcileSpec]
  | cons hd rest ih =>
    obtain ⟨name, hash⟩ := hd
    have hhd : classify pub name hash ≠ .indexError := h (name, hash) (by simp)
    have hrest : ∀ nh ∈ rest, classify pub nh.1 nh.2 ≠ .indexError :=
      fun nh hnh => h nh (List.mem_cons_of_mem _ hnh)
    have ihr := ih hrest
    cases hc : classify pub name hash with
    | indexError => exact absurd hc hhd
    | notFound =>
      simp [reconcileAux, hc, ihr, reconcileSpec, updRecord, colRecord, nfRecord,
        tpEntry, newVal, List.filterMap_cons]
    | collided cs =>
      simp [reconcileAux, hc, ihr, reconcileSpec, updRecord, colRecord, nfRecord,
        tpEntry, newVal, List.filterMap_cons]
    | updatedTo nh src =>
      simp [reconcileAux, hc, ihr, reconcileSpec, updRecord, colRecord, nfRecord,
        tpEntry, newVal, List.filterMap_cons]
    | unchanged =>
      simp [reconcileAux, hc, ihr, reconcileSpec, updRecord, colRecord, nfRecord,
        tpEntry, newVal, List.filterMap_cons]

theorem reconcileAux_ne_indexError (pub : List (String × List Package)) :
    ∀ (local3p : List (String × String)) (r : ReconcileResult),
      reconcileAux pub local3p = some r →
      ∀ nh ∈ local3p, classify pub nh.1 nh.2 ≠ .indexError := by
  intro local3p
  induction local3p with
  | nil => intro r _ nh hnh; simp at hnh
  | cons hd rest ih =>
    intro r hr nh hnh
    obtain ⟨name, hash⟩ := hd
    cases hc : classify pub name hash with
    | indexError => simp [reconcileAux, hc] at hr
    | _ =>
      rcases List.mem_cons.mp hnh with heq | hmem
      · subst heq; simp [hc]
      · cases hrest : reconcileAux pub rest with
        | none => simp [reconcileAux, hc, hrest] at hr
        | some r2 => exact ih r2 hrest nh hmem

theorem reconcileAux_inv {pub : List (String × List Package)}
    {local3p : List (String × String)} {r : ReconcileResult}
    (h : reconcileAux pub local3p = some r) :
    (∀ nh ∈ local3p, classify pub nh.1 nh.2 ≠ .indexError) ∧
      r = reconcileSpec pub local3p := by
  have hne := reconcileAux_ne_indexError pub local3p r h
  refine ⟨hne, ?_⟩
  have := reconcileAux_eq_spec pub local3p hne
  rw [this] at h
  exact (Option.some.injEq _ _ ▸ h).symm

theorem updRecord_eq_some (pub : List (String × List Package))
    (nh : String × String) (n o v s : String) :
    updRecord pub nh = some (n, o, v, s) ↔
      n = nh.1 ∧ o = nh.2 ∧ classify pub nh.1 nh.2 = .updatedTo v s := by
  unfold updRecord
  cases hc : classify pub nh.1 nh.2 <;> simp [hc] <;> aesop

theorem colRecord_eq_some (pub : List (String × List Package))
    (nh : String × String) (n : String) (cs : List String) :
    colRecord pub nh = some (n, cs) ↔
      n = nh.1 ∧ classify pub nh.1 nh.2 = .collided cs := by
  unfold colRecord
  cases hc : classify pub nh.1 nh.2 <;> simp [hc] <;> aesop

theorem nfRecord_eq_some (pub : List (String × List Package))
    (nh : String × String) (n : String) :
    nfRecord pub nh = some n ↔
      n = nh.1 ∧ classify pub nh.1 nh.2 = .notFound := by
  unfold nfRecord
  cases hc : classify pub nh.1 nh.2 <;> simp [hc] <;> aesop

/-! ### Where claims come from -/

theorem repoClaims_repo {p : Package} {repo : String} {d : Doc}
    (h : p ∈ repoClaims repo d) : p.repo = repo := by
  simp only [repoClaims, List.mem_map] at h
  obtain ⟨nh, _, rfl⟩ := h
  rfl

theorem allClaims_mem {p : Package} :
    ∀ {frs : List (String × Transport)}, p ∈ allClaims frs →
      ∃ repo t d, (repo, t) ∈ frs ∧ fetch_packages t = .doc d ∧ p ∈ repoClaims repo d := by
  intro frs
  induction frs with
  | nil => intro h; simp [allClaims] at h
  | cons hd rest ih =>
    intro h
    obtain ⟨repo, t⟩ := hd
    cases hf : fetch_packages t with
    | doc d =>
      rw [allClaims, hf] at h
      rcases List.mem_append.mp h with h1 | h2
      · exact ⟨repo, t, d, by simp, hf, h1⟩
      · obtain ⟨r2, t2, d2, hm, hf2, hp⟩ := ih h2
        exact ⟨r2, t2, d2, List.mem_cons_of_mem _ hm, hf2, hp⟩
    | absent =>
      rw [allClaims, hf] at h
      obtain ⟨r2, t2, d2, hm, hf2, hp⟩ := ih h
      exact ⟨r2, t2, d2, List.mem_cons_of_mem _ hm, hf2, hp⟩
    | raised =>
      rw [allClaims, hf] at h
      obtain ⟨r2, t2, d2, hm, hf2, hp⟩ := ih h
      exact ⟨r2, t2, d2, List.mem_cons_of_mem _ hm, hf2, hp⟩

theorem checkedOf_mem {repo : String} {t : Transport} {d : Doc}
    {frs : List (String × Transport)}
    (hm : (repo, t) ∈ frs) (hf : fetch_packages t = .doc d) :
    repo ∈ checkedOf frs := by
  induction frs with
  | nil => simp at hm
  | cons hd rest ih =>
    obtain ⟨r2, t2⟩ := hd
    rcases List.mem_cons.mp hm with heq | hmem
    · obtain ⟨rfl, rfl⟩ := Prod.mk.injEq .. ▸ heq
      injection heq with h1 h2
      rw [checkedOf, hf]
      simp
    · cases hf2 : fetch_packages t2 with
      | doc d2 => rw [checkedOf, hf2]; exact List.mem_cons_of_mem _ (ih hmem)
      | absent => rw [checkedOf, hf2]; exact ih hmem
      | raised => rw [checkedOf, hf2]; exact ih hmem

theorem mem_checkedOf {repo : String} :
    ∀ {frs : List (String × Transport)}, repo ∈ checkedOf frs →
      ∃ t d, (repo, t) ∈ frs ∧ fetch_packages t = .doc d := by
  intro frs
  induction frs with
  | nil => intro h; simp [checkedOf] at h
  | cons hd rest ih =>
    intro h
    obtain ⟨r2, t2⟩ := hd
    cases hf2 : fetch_packages t2 with
    | doc d2 =>
      rw [checkedOf, hf2] at h
      rcases List.mem_cons.mp h with heq | hmem
      · exact ⟨t2, d2, by simp [heq], hf2⟩
      · obtain ⟨t, d, hm, hf⟩ := ih hmem
        exact ⟨t, d, List.mem_cons_of_mem _ hm, hf⟩
    | absent =>
      rw [checkedOf, hf2] at h
      obtain ⟨t, d, hm, hf⟩ := ih h
      exact ⟨t, d, List.mem_cons_of_mem _ hm, hf⟩
    | raised =>
      rw [checkedOf, hf2] at h
      obtain ⟨t, d, hm, hf⟩ := ih h
      exact ⟨t, d, List.mem_cons_of_mem _ hm, hf⟩

/-- With duplicate-free keys (every Python dict), a key determines its value. -/
theorem nodup_keys_unique {α : Type} :
    ∀ {l : List (String × α)}, (l.map Prod.fst).Nodup →
      ∀ {k : String} {a b : α}, (k, a) ∈ l → (k, b) ∈ l → a = b := by
  intro l
  induction l with
  | nil => intro _ k a b ha; simp at ha
  | cons hd rest ih =>
    intro hnd k a b ha hb
    obtain ⟨k0, v0⟩ := hd
    simp only [List.map_cons, List.nodup_cons] at hnd
    rcases List.mem_cons.mp ha with hea | hma <;> rcases List.mem_cons.mp hb with heb | hmb
    · exact (Prod.ext_iff.mp (hea.trans heb.symm)).2
    · injection hea with h1 h2
      exact absurd (h1 ▸ List.mem_map_of_mem Prod.fst hmb) hnd.1
    · injection heb with h1 h2
      exact absurd (h1 ▸ List.mem_map_of_mem Prod.fst hma) hnd.1
    · exact ih hnd.2 hma hmb

/-- With duplicate-free keys, at most one entry of a dict matches a key. -/
theorem filter_keys_nil_or_single {α : Type} :
    ∀ {l : List (String × α)}, (l.map Prod.fst).Nodup → ∀ (name : String),
      l.filter (fun nh => nh.1 = name) = [] ∨
        ∃ v, l.filter (fun nh => nh.1 = name) = [(name, v)] := by
  intro l
  induction l with
  | nil => intro _ name; left; rfl
  | cons hd rest ih =>
    intro hnd name
    obtain ⟨k0, v0⟩ := hd
    simp only [List.map_cons, List.nodup_cons] at hnd
    by_cases hk : k0 = name
    · right
      refine ⟨v0, ?_⟩
      have hrest : rest.filter (fun nh => nh.1 = name) = [] := by
        rw [List.filter_eq_nil_iff]
        intro nh hnh
        simp only [decide_eq_true_eq]
        intro heq
        apply hnd.1
        rw [hk, ← heq]
        exact List.mem_map_of_mem Prod.fst hnh
      simp [List.filter_cons, hk, hrest]
    · have : (rest.filter (fun nh => nh.1 = name) = [] ∨
          ∃ v, rest.filter (fun nh => nh.1 = name) = [(name, v)]) := ih hnd.2 name
      simpa [List.filter_cons, hk] using this

/-- The contribution of one repository to the claims on one name: empty, or a
single claim from that repository, when the `"dev"` keys are unique. -/
theorem repoClaims_filter {repo : String} {d : Doc} (name : String)
    (hnd : ((devItems d).map Prod.fst).Nodup) :
    ((repoClaims repo d).filter (fun p => p.name = name)).map (fun p => p.repo) = [] ∨
      ((repoClaims repo d).filter (fun p => p.name = name)).map (fun p => p.repo) = [repo] := by
  have hfm : (repoClaims repo d).filter (fun p => p.name = name) =
      ((devItems d).filter (fun nh => nh.1 = name)).map
        (fun nh => (⟨nh.1, nh.2, repo⟩ : Package)) := by
    rw [repoClaims, List.filter_map]
    rfl
  rcases filter_keys_nil_or_single hnd name with hnil | ⟨v, hone⟩
  · left; rw [hfm, hnil]; rfl
  · right; rw [hfm, hone]; rfl

/-- The claimant repositories of any name, listed in declared repository
iteration order: the repositories of the claim list form a sublist of the
declared repository list. -/
theorem claims_repos_sublist (name : String) :
    ∀ {frs : List (String × Transport)},
      (∀ p ∈ frs, ∀ d, fetch_packages p.2 = .doc d → ((devItems d).map Prod.fst).Nodup) →
      List.Sublist
        (((allClaims frs).filter (fun p => p.name = name)).map (fun p => p.repo))
        (frs.map Prod.fst) := by
  intro frs
  induction frs with
  | nil => intro _; simp [allClaims]
  | cons hd rest ih =>
    intro hnd
    obtain ⟨repo, t⟩ := hd
    have hrest : ∀ p ∈ rest, ∀ d, fetch_packages p.2 = .doc d →
        ((devItems d).map Prod.fst).Nodup :=
      fun p hp => hnd p (List.mem_cons_of_mem _ hp)
    cases hf : fetch_packages t with
    | doc d =>
      rw [allClaims, hf, List.filter_append, List.map_append, List.map_cons]
      have hd1 := hnd (repo, t) (by simp) d hf
      rcases repoClaims_filter name hd1 with hnil | hone
      · rw [hnil, List.nil_append]
        exact (ih hrest).cons repo
      · rw [hone, List.singleton_append]
        exact (ih hrest).cons₂ repo
    | absent =>
      rw [allClaims, hf, List.map_cons]
      exact (ih hrest).cons repo
    | raised =>
      rw [allClaims, hf, List.map_cons]
      exact (ih hrest).cons repo

theorem mem_spec_not_found {pub : List (String × List Package)}
    {local3p : List (String × String)} {name : String} :
    name ∈ (reconcileSpec pub local3p).not_found ↔
      ∃ h, (name, h) ∈ local3p ∧ classify pub name h = .notFound := by
  simp only [reconcileSpec, List.mem_filterMap]
  constructor
  · rintro ⟨nh, hmem, hrec⟩
    obtain ⟨rfl, hc⟩ := (nfRecord_eq_some _ _ _).mp hrec
    exact ⟨nh.2, by simpa using hmem, hc⟩
  · rintro ⟨h, hmem, hc⟩
    exact ⟨(name, h), hmem, (nfRecord_eq_some _ _ _).mpr ⟨rfl, hc⟩⟩

theorem mem_spec_collisions {pub : List (String × List Package)}
    {local3p : List (String × String)} {name : String} {cs : List String} :
    (name, cs) ∈ (reconcileSpec pub local3p).collisions ↔
      ∃ h, (name, h) ∈ local3p ∧ classify pub name h = .collided cs := by
  simp only [reconcileSpec, List.mem_filterMap]
  constructor
  · rintro ⟨nh, hmem, hrec⟩
    obtain ⟨rfl, hc⟩ := (colRecord_eq_some _ _ _ _).mp hrec
    exact ⟨nh.2, by simpa using hmem, hc⟩
  · rintro ⟨h, hmem, hc⟩
    exact ⟨(name, h), hmem, (colRecord_eq_some _ _ _ _).mpr ⟨rfl, hc⟩⟩

theorem mem_spec_updated {pub : List (String × List Package)}
    {local3p : List (String × String)} {name o v s : String} :
    (name, o, v, s) ∈ (reconcileSpec pub local3p).updated ↔
      (name, o) ∈ local3p ∧ classify pub name o = .updatedTo v s := by
  simp only [reconcileSpec, List.mem_filterMap]
  constructor
  · rintro ⟨nh, hmem, hrec⟩
    obtain ⟨rfl, rfl, hc⟩ := (updRecord_eq_some _ _ _ _ _ _).mp hrec
    exact ⟨by simpa using hmem, hc⟩
  · rintro ⟨hmem, hc⟩
    exact ⟨(name, o), hmem, (updRecord_eq_some _ _ _ _ _ _).mpr ⟨rfl, rfl, hc⟩⟩

theorem spec_third_party {pub : List (String × List Package)}
    {local3p : List (String × String)} :
    (reconcileSpec pub local3p).third_party = local3p.map (tpEntry pub) := rfl

theorem devOk_nodup {t : Transport} {d : Doc} (h : devOk t = true)
    (hf : fetch_packages t = .doc d) : ((devItems d).map Prod.fst).Nodup := by
  unfold devOk at h
  rw [hf] at h
  exact of_decide_eq_true h

theorem classify_of_lookup_multi {pub : List (String × List Package)}
    {name : String} (hash : String) {ps : List Package}
    (hps : lookupA pub name = some ps) (hlen : 1 < ps.length) :
    classify pub name hash = .collided (ps.map (fun p => p.repo)) := by
  unfold classify
  rw [hps]
  simp [hlen]

theorem classify_of_lookup_single {pub : List (String × List Package)}
    {name : String} (hash : String) {p : Package}
    (hps : lookupA pub name = some [p]) :
    classify pub name hash =
      if hash ≠ p.hash then .updatedTo p.hash p.repo else .unchanged := by
  unfold classify
  rw [hps]
  simp

/-! ### The claims -/

/-- C1: for every local manifest reconciled against aggregated claims, every
name of the `"third_party"` map is classified into exactly one of the four
outcomes updated / collided / not-found / unchanged: the loop completes, no
name is omitted, and no name lands in two outcomes. -/
theorem C1_partition (frs : List (String × Transport))
    (pub : List (String × List Package)) (checked : List String)
    (local3p : List (String × String))
    (hagg : aggregate frs = .ok (pub, checked))
    (hnd : (local3p.map Prod.fst).Nodup) :
    ∃ r, reconcileAux pub local3p = some r ∧
      ∀ name hash, (name, hash) ∈ local3p →
        ((name ∈ r.not_found ∨ (∃ cs, (name, cs) ∈ r.collisions) ∨
            (∃ o v s, (name, o, v, s) ∈ r.updated) ∨
            classify pub name hash = .unchanged) ∧
         (name ∈ r.not_found →
            (∀ cs, (name, cs) ∉ r.collisions) ∧
            (∀ o v s, (name, o, v, s) ∉ r.updated) ∧
            classify pub name hash ≠ .unchanged) ∧
         ((∃ cs, (name, cs) ∈ r.collisions) →
            name ∉ r.not_found ∧ (∀ o v s, (name, o, v, s) ∉ r.updated) ∧
            classify pub name hash ≠ .unchanged) ∧
         ((∃ o v s, (name, o, v, s) ∈ r.updated) →
            name ∉ r.not_found ∧ (∀ cs, (name, cs) ∉ r.collisions) ∧
            classify pub name hash ≠ .unchanged)) := by
  have hcl : ∀ nh ∈ local3p, classify pub nh.1 nh.2 ≠ .indexError :=
    fun nh _ => classify_ne_indexError hagg nh.1 nh.2
  refine ⟨reconcileSpec pub local3p, reconcileAux_eq_spec pub local3p hcl, ?_⟩
  intro name hash hmem
  have huniq : ∀ h2, (name, h2) ∈ local3p → h2 = hash :=
    fun h2 hm2 => nodup_keys_unique hnd hm2 hmem
  have hA : name ∈ (reconcileSpec pub local3p).not_found ↔
      classify pub name hash = .notFound := by
    rw [mem_spec_not_found]
    constructor
    · rintro ⟨h2, hm2, hc⟩; rwa [huniq h2 hm2] at hc
    · intro hc; exact ⟨hash, hmem, hc⟩
  have hB : ∀ cs, (name, cs) ∈ (reconcileSpec pub local3p).collisions ↔
      classify pub name hash = .collided cs := by
    intro cs
    rw [mem_spec_collisions]
    constructor
    · rintro ⟨h2, hm2, hc⟩; rwa [huniq h2 hm2] at hc
    · intro hc; exact ⟨hash, hmem, hc⟩
  have hC : ∀ o v s, (name, o, v, s) ∈ (reconcileSpec pub local3p).updated ↔
      o = hash ∧ classify pub name hash = .updatedTo v s := by
    intro o v s
    rw [mem_spec_updated]
    constructor
    · rintro ⟨hm2, hc⟩
      have := huniq o hm2
      subst this
      exact ⟨rfl, hc⟩
    · rintro ⟨rfl, hc⟩
      exact ⟨hmem, hc⟩
  cases hc : classify pub name hash with
  | indexError => exact absurd hc (hcl (name, hash) hmem)
  | notFound => simp [hA, hB, hC, hc]
  | collided cs => simp [hA, hB, hC, hc]
  | updatedTo v s => simp [hA, hB, hC, hc]
  | unchanged => simp [hA, hB, hC, hc]

/-- Witness for C1 on the worked example. -/
theorem C1_partition_witness :
    aggregate exFrs = .ok (exPub, exChecked) ∧
    (exLocal.map Prod.fst).Nodup ∧
    (∃ r, reconcileAux exPub exLocal = some r ∧
      ∀ name hash, (name, hash) ∈ exLocal →
        ((name ∈ r.not_found ∨ (∃ cs, (name, cs) ∈ r.collisions) ∨
            (∃ o v s, (name, o, v, s) ∈ r.updated) ∨
            classify exPub name hash = .unchanged) ∧
         (name ∈ r.not_found →
            (∀ cs, (name, cs) ∉ r.collisions) ∧
            (∀ o v s, (name, o, v, s) ∉ r.updated) ∧
            classify exPub name hash ≠ .unchanged) ∧
         ((∃ cs, (name, cs) ∈ r.collisions) →
            name ∉ r.not_found ∧ (∀ o v s, (name, o, v, s) ∉ r.updated) ∧
            classify exPub name hash ≠ .unchanged) ∧
         ((∃ o v s, (name, o, v, s) ∈ r.updated) →
            name ∉ r.not_found ∧ (∀ cs, (name, cs) ∉ r.collisions) ∧
            classify exPub name hash ≠ .unchanged))) :=
  ⟨rfl, by decide, C1_partition exFrs exPub exChecked exLocal rfl (by decide)⟩

/-- C2: a name with claims from two or more repositories is classified as
collided (regardless of the claimed hashes, and regardless of agreement with
the local hash), is reported with the full claimant list, and the claimant
list follows the declared repository iteration order. -/
theorem C2_collision (frs : List (String × Transport))
    (pub : List (String × List Package)) (checked : List String)
    (local3p : List (String × String)) (r : ReconcileResult)
    (name hash : String) (ps : List Package)
    (hagg : aggregate frs = .ok (pub, checked))
    (hdev : ∀ p ∈ frs, devOk p.2 = true)
    (hnd : (local3p.map Prod.fst).Nodup)
    (hrec : reconcileAux pub local3p = some r)
    (hmem : (name, hash) ∈ local3p)
    (hps : lookupA pub name = some ps)
    (hlen : 1 < ps.length) :
    (name, ps.map (fun p => p.repo)) ∈ r.collisions ∧
    name ∉ r.not_found ∧
    (∀ o v s, (name, o, v, s) ∉ r.updated) ∧
    List.Sublist (ps.map (fun p => p.repo)) (frs.map Prod.fst) := by
  obtain ⟨hne, rfl⟩ := reconcileAux_inv hrec
  have huniq : ∀ h2, (name, h2) ∈ local3p → h2 = hash :=
    fun h2 hm2 => nodup_keys_unique hnd hm2 hmem
  have hc : classify pub name hash = .collided (ps.map (fun p => p.repo)) :=
    classify_of_lookup_multi hash hps hlen
  refine ⟨mem_spec_collisions.mpr ⟨hash, hmem, hc⟩, ?_, ?_, ?_⟩
  · intro hnf
    obtain ⟨h2, hm2, hc2⟩ := mem_spec_not_found.mp hnf
    rw [huniq h2 hm2, hc] at hc2
    cases hc2
  · intro o v s hu
    obtain ⟨hm2, hc2⟩ := mem_spec_updated.mp hu
    rw [huniq o hm2, hc] at hc2
    cases hc2
  · have hdev2 : ∀ p ∈ frs, ∀ d, fetch_packages p.2 = .doc d →
        ((devItems d).map Prod.fst).Nodup :=
      fun p hp d hd => devOk_nodup (hdev p hp) hd
    have hfil := (lookupA_aggregate_some hagg hps).1
    rw [hfil]
    exact claims_repos_sublist name hdev2

/-- Witness for C2: `libX` in the worked example, claimed by both
repositories. -/
theorem C2_collision_witness :
    aggregate exFrs = .ok (exPub, exChecked) ∧
    (∀ p ∈ exFrs, devOk p.2 = true) ∧
    (exLocal.map Prod.fst).Nodup ∧
    reconcileAux exPub exLocal = some exResult ∧
    ("libX", "hL") ∈ exLocal ∧
    lookupA exPub "libX" = some [⟨"libX", "hA", "repo1"⟩, ⟨"libX", "hB", "repo2"⟩] ∧
    (("libX", ([⟨"libX", "hA", "repo1"⟩, ⟨"libX", "hB", "repo2"⟩] : List Package).map
        (fun p => p.repo)) ∈ exResult.collisions ∧
      "libX" ∉ exResult.not_found ∧
      (∀ o v s, ("libX", o, v, s) ∉ exResult.updated) ∧
      List.Sublist (([⟨"libX", "hA", "repo1"⟩, ⟨"libX", "hB", "repo2"⟩] : List Package).map
        (fun p => p.repo)) (exFrs.map Prod.fst)) :=
  ⟨rfl, by decide, by decide, rfl, by decide, rfl,
    C2_collision exFrs exPub exChecked exLocal exResult "libX" "hL"
      [⟨"libX", "hA", "repo1"⟩, ⟨"libX", "hB", "repo2"⟩]
      rfl (by decide) (by decide) rfl (by decide) rfl (by decide)⟩

/-- C3: a name with exactly one claim is updated in place to the hash of the
claim when the hashes differ — recording `(name, oldHash, newHash,
sourceRepository)` — and is silently unchanged when they agree; the single
claim is authoritative whichever repository produced it. -/
theorem C3_single_claim (frs : List (String × Transport))
    (pub : List (String × List Package)) (checked : List String)
    (local3p : List (String × String)) (r : ReconcileResult)
    (name hash : String) (p : Package)
    (_hagg : aggregate frs = .ok (pub, checked))
    (hnd : (local3p.map Prod.fst).Nodup)
    (hrec : reconcileAux pub local3p = some r)
    (hmem : (name, hash) ∈ local3p)
    (hps : lookupA pub name = some [p]) :
    (hash ≠ p.hash →
        (name, hash, p.hash, p.repo) ∈ r.updated ∧
        (name, p.hash) ∈ r.third_party ∧
        name ∉ r.not_found ∧
        (∀ cs, (name, cs) ∉ r.collisions)) ∧
    (hash = p.hash →
        (∀ o v s, (name, o, v, s) ∉ r.updated) ∧
        name ∉ r.not_found ∧
        (∀ cs, (name, cs) ∉ r.collisions) ∧
        (name, hash) ∈ r.third_party) := by
  obtain ⟨hne, rfl⟩ := reconcileAux_inv hrec
  have huniq : ∀ h2, (name, h2) ∈ local3p → h2 = hash :=
    fun h2 hm2 => nodup_keys_unique hnd hm2 hmem
  have hcs := classify_of_lookup_single (p := p) hash hps
  constructor
  · intro hdiff
    have hc : classify pub name hash = .updatedTo p.hash p.repo := by
      rw [hcs, if_pos hdiff]
    refine ⟨mem_spec_updated.mpr ⟨hmem, hc⟩, ?_, ?_, ?_⟩
    · rw [spec_third_party]
      have : tpEntry pub (name, hash) = (name, p.hash) := by
        simp [tpEntry, newVal, hc]
      exact this ▸ List.mem_map_of_mem (tpEntry pub) hmem
    · intro hnf
      obtain ⟨h2, hm2, hc2⟩ := mem_spec_not_found.mp hnf
      rw [huniq h2 hm2, hc] at hc2
      cases hc2
    · intro cs hcol
      obtain ⟨h2, hm2, hc2⟩ := mem_spec_collisions.mp hcol
      rw [huniq h2 hm2, hc] at hc2
      cases hc2
  · intro heq
    have hc : classify pub name hash = .unchanged := by
      rw [hcs, if_neg (by simpa using heq)]
    refine ⟨?_, ?_, ?_, ?_⟩
    · intro o v s hu
      obtain ⟨hm2, hc2⟩ := mem_spec_updated.mp hu
      rw [huniq o hm2, hc] at hc2
      cases hc2
    · intro hnf
      obtain ⟨h2, hm2, hc2⟩ := mem_spec_not_found.mp hnf
      rw [huniq h2 hm2, hc] at hc2
      cases hc2
    · intro cs hcol
      obtain ⟨h2, hm2, hc2⟩ := mem_spec_collisions.mp hcol
      rw [huniq h2 hm2, hc] at hc2
      cases hc2
    · rw [spec_third_party]
      have : tpEntry pub (name, hash) = (name, hash) := by
        simp [tpEntry, newVal, hc]
      exact this ▸ List.mem_map_of_mem (tpEntry pub) hmem

/-- Witness for C3: `libA` in the worked example, single differing claim. -/
theorem C3_single_claim_witness :
    aggregate exFrs = .ok (exPub, exChecked) ∧
    (exLocal.map Prod.fst).Nodup ∧
    reconcileAux exPub exLocal = some exResult ∧
    ("libA", "h1") ∈ exLocal ∧
    lookupA exPub "libA" = some [⟨"libA", "h1new", "repo1"⟩] ∧
    (("h1" ≠ "h1new" →
        ("libA", "h1", "h1new", "repo1") ∈ exResult.updated ∧
        ("libA", "h1new") ∈ exResult.third_party ∧
        "libA" ∉ exResult.not_found ∧
        (∀ cs, ("libA", cs) ∉ exResult.collisions)) ∧
     ("h1" = "h1new" →
        (∀ o v s, ("libA", o, v, s) ∉ exResult.updated) ∧
        "libA" ∉ exResult.not_found ∧
        (∀ cs, ("libA", cs) ∉ exResult.collisions) ∧
        ("libA", "h1") ∈ exResult.third_party)) :=
  ⟨rfl, by decide, rfl, by decide, rfl,
    C3_single_claim exFrs exPub exChecked exLocal exResult "libA" "h1"
      ⟨"libA", "h1new", "repo1"⟩ rfl (by decide) rfl (by decide) rfl⟩

theorem classify_newVal (pub : List (String × List Package)) (n h : String)
    (hne : classify pub n h ≠ .indexError) :
    classify pub n (newVal pub n h) ≠ .indexError ∧
      ∀ v s, classify pub n (newVal pub n h) ≠ .updatedTo v s := by
  unfold newVal
  cases hl : lookupA pub n with
  | none => simp [classify, hl]
  | some ps =>
    cases ps with
    | nil => exact absurd (by simp [classify, hl]) hne
    | cons p rest =>
      by_cases hlen : 0 < rest.length
      · simp [classify, hl, hlen]
      · by_cases hh : h = p.hash
        · simp [classify, hl, hlen, hh]
        · simp [classify, hl, hlen, hh]

theorem updRecord_eq_none {pub : List (String × List Package)}
    {nh : String × String}
    (h : ∀ v s, classify pub nh.1 nh.2 ≠ .updatedTo v s) :
    updRecord pub nh = none := by
  unfold updRecord
  cases hc : classify pub nh.1 nh.2 with
  | updatedTo v s => exact absurd hc (h v s)
  | _ => rfl

/-- C4: reconciliation is idempotent — after one pass mutates the local
map, a second pass against the same aggregated claims computes no update. -/
theorem C4_idempotent (pub : List (String × List Package))
    (local3p : List (String × String)) (r : ReconcileResult)
    (hrec : reconcileAux pub local3p = some r) :
    ∃ r2, reconcileAux pub r.third_party = some r2 ∧ r2.updated = [] := by
  obtain ⟨hne, rfl⟩ := reconcileAux_inv hrec
  rw [spec_third_party]
  have hcl2 : ∀ nh ∈ local3p.map (tpEntry pub),
      classify pub nh.1 nh.2 ≠ .indexError ∧
        ∀ v s, classify pub nh.1 nh.2 ≠ .updatedTo v s := by
    intro nh hmem
    obtain ⟨mh, hmh, rfl⟩ := List.mem_map.mp hmem
    exact classify_newVal pub mh.1 mh.2 (hne mh hmh)
  refine ⟨reconcileSpec pub (local3p.map (tpEntry pub)),
    reconcileAux_eq_spec pub _ (fun nh hm => (hcl2 nh hm).1), ?_⟩
  show (local3p.map (tpEntry pub)).filterMap (updRecord pub) = []
  rw [List.filterMap_eq_nil_iff]
  exact fun nh hm => updRecord_eq_none (hcl2 nh hm).2

/-- Witness for C4 on the worked example. -/
theorem C4_idempotent_witness :
    reconcileAux exPub exLocal = some exResult ∧
    (∃ r2, reconcileAux exPub exResult.third_party = some r2 ∧ r2.updated = []) :=
  ⟨rfl, C4_idempotent exPub exLocal exResult rfl⟩

/-- C5: a transport-level fetch failure is non-fatal: the fetcher signals
absence, the repository is excluded from the checked list and contributes
no claims, and any local name claimed by no successfully fetched repository
is classified as not-found. -/
theorem C5_fetch_failure (frs : List (String × Transport))
    (local3p : List (String × String)) (repo : String) (t : Transport)
    (hmemf : (repo, t) ∈ frs)
    (hfail : t = .httpError ∨ t = .netError)
    (hok : ∀ p ∈ frs, fetch_packages p.2 ≠ .raised)
    (hfrsnd : (frs.map Prod.fst).Nodup) :
    fetch_packages t = .absent ∧
    ∃ pub checked, aggregate frs = .ok (pub, checked) ∧
      repo ∉ checked ∧
      (∀ name ps, lookupA pub name = some ps → ∀ p ∈ ps, p.repo ≠ repo) ∧
      ∃ r, reconcileAux pub local3p = some r ∧
        ∀ name hash, (name, hash) ∈ local3p →
          (∀ p ∈ allClaims frs, p.name ≠ name) → name ∈ r.not_found := by
  have habs : fetch_packages t = .absent := by
    rcases hfail with rfl | rfl <;> rfl
  have hagg : aggregate frs =
      .ok ((allClaims frs).foldl addClaim [], checkedOf frs) := by
    have := aggregateAux_ok frs hok ([], [])
    simpa [aggregate] using this
  refine ⟨habs, (allClaims frs).foldl addClaim [], checkedOf frs, hagg, ?_, ?_, ?_⟩
  · intro hchk
    obtain ⟨t2, d2, hm2, hf2⟩ := mem_checkedOf hchk
    have ht : t2 = t := nodup_keys_unique hfrsnd hm2 hmemf
    rw [ht, habs] at hf2
    cases hf2
  · intro name ps hl p hp
    have hfil := (lookupA_aggregate_some hagg hl).1
    rw [hfil] at hp
    have hpall : p ∈ allClaims frs := List.mem_of_mem_filter hp
    obtain ⟨repo2, t2, d2, hm2, hf2, hpc⟩ := allClaims_mem hpall
    have hrepo : p.repo = repo2 := repoClaims_repo hpc
    rw [hrepo]
    intro heq
    rw [heq] at hm2
    have ht : t2 = t := nodup_keys_unique hfrsnd hm2 hmemf
    rw [ht, habs] at hf2
    cases hf2
  · have hcl : ∀ nh ∈ local3p,
        classify ((allClaims frs).foldl addClaim []) nh.1 nh.2 ≠ .indexError :=
      fun nh _ => classify_ne_indexError hagg nh.1 nh.2
    refine ⟨reconcileSpec _ local3p, reconcileAux_eq_spec _ local3p hcl, ?_⟩
    intro name hash hmem hnone
    have hl : lookupA ((allClaims frs).foldl addClaim []) name = none :=
      (lookupA_aggregate_none hagg name).mpr hnone
    have hc : classify ((allClaims frs).foldl addClaim []) name hash = .notFound := by
      unfold classify
      rw [hl]
    exact mem_spec_not_found.mpr ⟨hash, hmem, hc⟩

/-- Witness for C5: `repo3` of the worked example fails with an HTTP error;
`libZ` is claimed by nobody and lands in not-found. -/
theorem C5_fetch_failure_witness :
    ("repo3", Transport.httpError) ∈ exFrs ∧
    (Transport.httpError = .httpError ∨ Transport.httpError = .netError) ∧
    (∀ p ∈ exFrs, fetch_packages p.2 ≠ .raised) ∧
    (exFrs.map Prod.fst).Nodup ∧
    (fetch_packages .httpError = .absent ∧
      ∃ pub checked, aggregate exFrs = .ok (pub, checked) ∧
        "repo3" ∉ checked ∧
        (∀ name ps, lookupA pub name = some ps → ∀ p ∈ ps, p.repo ≠ "repo3") ∧
        ∃ r, reconcileAux pub exLocal = some r ∧
          ∀ name hash, (name, hash) ∈ exLocal →
            (∀ p ∈ allClaims exFrs, p.name ≠ name) → name ∈ r.not_found) :=
  ⟨by decide, Or.inl rfl, by decide, by decide,
    C5_fetch_failure exFrs exLocal "repo3" .httpError
      (by decide) (Or.inl rfl) (by decide) (by decide)⟩

theorem run_ok_inv {inp : RunInput} {res : RunResult} (h : run inp = .ok res) :
    ∃ pub checked m r,
      aggregate inp.fetches = .ok (pub, checked) ∧
      inp.localFile = some m ∧
      reconcileAux pub (m.third_party.getD []) = some r ∧
      res = { checked := checked, updated := r.updated, collisions := r.collisions,
              not_found := r.not_found,
              mem := { m with third_party := m.third_party.map (fun _ => r.third_party) },
              wrote := !inp.dryRun && !r.updated.isEmpty,
              finalFile := if !inp.dryRun && !r.updated.isEmpty
                then { m with third_party := m.third_party.map (fun _ => r.third_party) }
                else m } := by
  unfold run at h
  split at h
  · exact absurd h (by simp)
  next pub checked heq1 =>
    split at h
    · exact absurd h (by simp)
    next m heq2 =>
      split at h
      · exact absurd h (by simp)
      next r heq3 =>
        simp only [Except.ok.injEq] at h
        exact ⟨pub, checked, m, r, heq1, heq2, heq3, h.symm⟩

/-- C6: with `--dry-run` the local file is never rewritten; without it the
file is rewritten exactly when the computed update list is non-empty. -/
theorem C6_dry_run (inp : RunInput) (m : Manifest) (res : RunResult)
    (hm : inp.localFile = some m)
    (hrun : run inp = .ok res) :
    (inp.dryRun = true → res.wrote = false ∧ res.finalFile = m) ∧
    (inp.dryRun = false →
      ((res.wrote = true ↔ res.updated ≠ []) ∧
       (res.updated = [] → res.finalFile = m) ∧
       (res.updated ≠ [] → res.finalFile = res.mem))) := by
  obtain ⟨pub, checked, m2, r, hagg, hm2, hrec, rfl⟩ := run_ok_inv hrun
  rw [hm] at hm2
  injection hm2 with hmm
  subst hmm
  constructor
  · intro hd
    simp [hd]
  · intro hd
    refine ⟨?_, ?_, ?_⟩
    · simp [hd, List.isEmpty_iff]
    · intro hupd
      have hupd2 : r.updated = [] := by simpa using hupd
      simp [hd, hupd2]
    · intro hupd
      have hupd2 : r.updated ≠ [] := by simpa using hupd
      simp [hd, List.isEmpty_iff, hupd2]

/-- Witness for C6 on the worked example (no dry-run, two updates). -/
theorem C6_dry_run_witness :
    exInput.localFile = some exManifest ∧
    run exInput = .ok exRun ∧
    ((exInput.dryRun = true → exRun.wrote = false ∧ exRun.finalFile = exManifest) ∧
     (exInput.dryRun = false →
       ((exRun.wrote = true ↔ exRun.updated ≠ []) ∧
        (exRun.updated = [] → exRun.finalFile = exManifest) ∧
        (exRun.updated ≠ [] → exRun.finalFile = exRun.mem)))) :=
  ⟨rfl, rfl, C6_dry_run exInput exManifest exRun rfl rfl⟩

/-- C7: reconciliation only rewrites the values of updated names inside
`"third_party"`: non-updated entries keep their hash, no key is added or
removed, and every other section of the manifest is untouched. -/
theorem C7_frame (inp : RunInput) (m : Manifest) (res : RunResult)
    (hm : inp.localFile = some m)
    (hrun : run inp = .ok res) :
    res.mem.rest = m.rest ∧
    res.finalFile.rest = m.rest ∧
    res.mem.third_party.isSome = m.third_party.isSome ∧
    (res.mem.third_party.getD []).map Prod.fst = (m.third_party.getD []).map Prod.fst ∧
    (∀ name hash, (name, hash) ∈ m.third_party.getD [] →
      (∀ o v s, (name, o, v, s) ∉ res.updated) →
      (name, hash) ∈ res.mem.third_party.getD []) := by
  obtain ⟨pub, checked, m2, r, hagg, hm2, hrec, rfl⟩ := run_ok_inv hrun
  rw [hm] at hm2
  injection hm2 with hmm
  subst hmm
  obtain ⟨hne, hr⟩ := reconcileAux_inv hrec
  refine ⟨rfl, ?_, ?_, ?_, ?_⟩
  · by_cases hw : (!inp.dryRun && !r.updated.isEmpty) = true <;> simp [hw]
  · cases m.third_party <;> rfl
  · cases htp : m.third_party with
    | none => simp
    | some tp =>
      rw [htp] at hr
      simp only [Option.getD_some] at hr
      simp only [hr, spec_third_party]
      simp [List.map_map, tpEntry, Function.comp]
  · intro name hash hmem hnu
    have hnu2 : ∀ o v s, (name, o, v, s) ∉ r.updated := hnu
    cases htp : m.third_party with
    | none =>
      rw [htp] at hmem
      simp at hmem
    | some tp =>
      rw [htp] at hmem hr
      simp only [Option.getD_some] at hmem hr
      simp only [Option.map_some, Option.getD_some, hr, spec_third_party]
      cases hc : classify pub name hash with
      | updatedTo v s =>
        exfalso
        apply hnu2 hash v s
        rw [hr]
        exact mem_spec_updated.mpr ⟨hmem, hc⟩
      | notFound =>
        have he : tpEntry pub (name, hash) = (name, hash) := by simp [tpEntry, newVal, hc]
        exact he ▸ List.mem_map_of_mem (tpEntry pub) hmem
      | collided cs =>
        have he : tpEntry pub (name, hash) = (name, hash) := by simp [tpEntry, newVal, hc]
        exact he ▸ List.mem_map_of_mem (tpEntry pub) hmem
      | unchanged =>
        have he : tpEntry pub (name, hash) = (name, hash) := by simp [tpEntry, newVal, hc]
        exact he ▸ List.mem_map_of_mem (tpEntry pub) hmem
      | indexError =>
        have he : tpEntry pub (name, hash) = (name, hash) := by simp [tpEntry, newVal, hc]
        exact he ▸ List.mem_map_of_mem (tpEntry pub) hmem

/-- Witness for C7 on the worked example. -/
theorem C7_frame_witness :
    exInput.localFile = some exManifest ∧
    run exInput = .ok exRun ∧
    (exRun.mem.rest = exManifest.rest ∧
     exRun.finalFile.rest = exManifest.rest ∧
     exRun.mem.third_party.isSome = exManifest.third_party.isSome ∧
     (exRun.mem.third_party.getD []).map Prod.fst =
       (exManifest.third_party.getD []).map Prod.fst ∧
     (∀ name hash, (name, hash) ∈ exManifest.third_party.getD [] →
       (∀ o v s, (name, o, v, s) ∉ exRun.updated) →
       (name, hash) ∈ exRun.mem.third_party.getD [])) :=
  ⟨rfl, rfl, C7_frame exInput exManifest exRun rfl rfl⟩

/-- C8 counterexample: a run whose local manifest file is missing or
malformed dies with an uncaught exception instead of exiting zero, so the
process does not always complete with status zero. -/
theorem C8_counterexample :
    run { fetches := [], localFile := none, dryRun := false } =
      .error .localFileCrash := rfl

/-- C8 (amended): whenever the local manifest file loads and no fetched
envelope is malformed (every fetch either succeeds or fails at the
transport level), the run completes and exits zero — per-repository
transport failures never change the exit status. -/
theorem C8_exit_zero (inp : RunInput) (m : Manifest)
    (hm : inp.localFile = some m)
    (hok : ∀ p ∈ inp.fetches, fetch_packages p.2 ≠ .raised) :
    ∃ res, run inp = .ok res := by
  have hagg : aggregate inp.fetches =
      .ok ((allClaims inp.fetches).foldl addClaim [], checkedOf inp.fetches) := by
    simpa [aggregate] using aggregateAux_ok inp.fetches hok ([], [])
  have hcl : ∀ nh ∈ m.third_party.getD [],
      classify ((allClaims inp.fetches).foldl addClaim []) nh.1 nh.2 ≠ .indexError :=
    fun nh _ => classify_ne_indexError hagg nh.1 nh.2
  have hrec := reconcileAux_eq_spec _ (m.third_party.getD []) hcl
  unfold run
  rw [hagg, hm]
  simp only [hrec]
  exact ⟨_, rfl⟩

/-- Witness for C8 (amended) on the worked example. -/
theorem C8_exit_zero_witness :
    exInput.localFile = some exManifest ∧
    (∀ p ∈ exInput.fetches, fetch_packages p.2 ≠ .raised) ∧
    ∃ res, run exInput = .ok res :=
  ⟨rfl, by decide, C8_exit_zero exInput exManifest rfl (by decide)⟩

/-- C9: a repository whose fetch succeeds but whose document has no `"dev"`
key (or an empty `"dev"` map) is still counted as checked while
contributing no claims. -/
theorem C9_empty_dev (frs : List (String × Transport)) (repo : String)
    (t : Transport) (d : Doc)
    (hmemf : (repo, t) ∈ frs)
    (hfetch : fetch_packages t = .doc d)
    (hdev : d.dev = none ∨ d.dev = some [])
    (hok : ∀ p ∈ frs, fetch_packages p.2 ≠ .raised)
    (hfrsnd : (frs.map Prod.fst).Nodup) :
    ∃ pub checked, aggregate frs = .ok (pub, checked) ∧
      repo ∈ checked ∧
      ∀ name ps, lookupA pub name = some ps → ∀ p ∈ ps, p.repo ≠ repo := by
  have hagg : aggregate frs =
      .ok ((allClaims frs).foldl addClaim [], checkedOf frs) := by
    simpa [aggregate] using aggregateAux_ok frs hok ([], [])
  refine ⟨_, _, hagg, checkedOf_mem hmemf hfetch, ?_⟩
  intro name ps hl p hp
  have hfil := (lookupA_aggregate_some hagg hl).1
  rw [hfil] at hp
  have hpall : p ∈ allClaims frs := List.mem_of_mem_filter hp
  obtain ⟨repo2, t2, d2, hm2, hf2, hpc⟩ := allClaims_mem hpall
  have hrepo : p.repo = repo2 := repoClaims_repo hpc
  rw [hrepo]
  intro heq
  rw [heq] at hm2
  have ht : t2 = t := nodup_keys_unique hfrsnd hm2 hmemf
  rw [ht, hfetch] at hf2
  injection hf2 with hd2
  rw [hd2] at hdev
  have hdi : devItems d2 = [] := by
    rcases hdev with h | h <;> simp [devItems, h]
  rw [repoClaims, hdi] at hpc
  simp at hpc

/-- Witness for C9: `repo4` of the worked example has no `"dev"` key. -/
theorem C9_empty_dev_witness :
    ("repo4", Transport.ok (.valid exDoc4)) ∈ exFrs ∧
    fetch_packages (.ok (.valid exDoc4)) = .doc exDoc4 ∧
    (exDoc4.dev = none ∨ exDoc4.dev = some []) ∧
    (∀ p ∈ exFrs, fetch_packages p.2 ≠ .raised) ∧
    (exFrs.map Prod.fst).Nodup ∧
    (∃ pub checked, aggregate exFrs = .ok (pub, checked) ∧
      "repo4" ∈ checked ∧
      ∀ name ps, lookupA pub name = some ps → ∀ p ∈ ps, p.repo ≠ "repo4") :=
  ⟨by decide, rfl, Or.inl rfl, by decide, by decide,
    C9_empty_dev exFrs "repo4" (.ok (.valid exDoc4)) exDoc4
      (by decide) rfl (Or.inl rfl) (by decide) (by decide)⟩

/-- C10: the fetcher returns the absence signal exactly for transport-level
failures; a 2xx response whose envelope lacks a `"content"` field, or whose
decoded content is not valid JSON, makes `fetch_packages` raise an uncaught
exception that terminates the whole run instead of skipping the repository. -/
theorem C10_malformed_content :
    (∀ t, fetch_packages t = .absent ↔ (t = .httpError ∨ t = .netError)) ∧
    fetch_packages (.ok .missing) = .raised ∧
    fetch_packages (.ok .invalidJson) = .raised ∧
    run { fetches := [("repo1", .ok .missing)], localFile := some exManifest,
          dryRun := false } = .error .fetchCrash := by
  refine ⟨?_, rfl, rfl, rfl⟩
  intro t
  cases t with
  | ok c => cases c <;> simp [fetch_packages, github_api]
  | httpError => simp [fetch_packages, github_api]
  | netError => simp [fetch_packages, github_api]

end Bumper
